import Mathlib

set_option maxHeartbeats 1000000

namespace Nonogram

/-! Shallow embedding of the nonogram solving engine of
`nonogram_solver.py`.  A line is a list of booleans (`true` = filled
cell), a domain is the list of still-possible fillings of one line, and
the solver state carries the per-orientation domain lists together with
the knowledge sets.  The array writes of the generator are modelled in
`Except`: an out-of-bounds write is the error that the original numpy
assignment raises. -/

/-- Single cell write of the generator; fails outside the line like the
underlying array write does. -/
def npSet (row : List Bool) (i : Nat) : Except Unit (List Bool) :=
  if i < row.length then .ok (row.set i true) else .error ()

/-- The inner loop of the recursive generator: write a block of `n`
consecutive filled cells starting at index `i`. -/
def setRun (row : List Bool) (i : Nat) : Nat → Except Unit (List Bool)
  | 0 => .ok row
  | n + 1 =>
    match npSet row i with
    | .error e => .error e
    | .ok row2 => setRun row2 (i + 1) n

/-- Earliest legal start of the current block: `0` for the first block,
one past the previous block plus the mandatory gap otherwise.  `none`
stands for the `-1, -1` sentinel pair the original passes before any
block has been placed. -/
def startOf : Option (Nat × Nat) → Nat
  | none => 0
  | some p => p.1 + p.2 + 1

mutual

/-- Faithful model of `generateDomainHelper`: recursive placement of the
blocks of a line spec, one level per block.  `sum` is the sum of the
numbers left to process; the appends into the shared `domain` list are
returned as the list of produced candidates. -/
def generateDomainHelper (size : Nat) (nums : List Nat) (row : List Bool)
    (last : Option (Nat × Nat)) (index : Nat) (sum : Int) :
    Except Unit (List (List Bool)) :=
  if sum = 0 then .ok [row]
  else
    match hidx : nums[index]? with
    | none => .error ()
    | some cur =>
      let sum2 : Int := sum - cur
      let start : Nat := startOf last
      let e0 : Int := (size : Int) - sum2 - nums.length + index - cur + 2
      let e1 : Int := if (start : Int) = e0 then e0 + 1 else e0
      placeLoop size nums row cur index sum2 start (e1 - start).toNat
termination_by (nums.length + 1 - index, 0)
decreasing_by
  have hlt : index < nums.length := by
    rcases Nat.lt_or_ge index nums.length with h | h
    · exact h
    · simp [List.getElem?_eq_none h] at hidx
  exact Prod.Lex.left _ _ (by omega)

/-- The `for i in range(start, end)` loop of `generateDomainHelper`,
unrolled by its iteration count. -/
def placeLoop (size : Nat) (nums : List Nat) (row : List Bool) (cur : Nat)
    (index : Nat) (sum2 : Int) (start count : Nat) :
    Except Unit (List (List Bool)) :=
  match count with
  | 0 => .ok []
  | c + 1 =>
    match setRun row start cur with
    | .error e => .error e
    | .ok row2 =>
      match generateDomainHelper size nums row2 (some (start, cur)) (index + 1) sum2 with
      | .error e => .error e
      | .ok d =>
        match placeLoop size nums row cur index sum2 (start + 1) c with
        | .error e => .error e
        | .ok rest => .ok (d ++ rest)
termination_by (nums.length - index, count)
decreasing_by
  · have h : nums.length + 1 - (index + 1) = nums.length - index := by omega
    rw [h]
    exact Prod.Lex.right _ (by omega)
  · exact Prod.Lex.right _ (by omega)

end

/-- Faithful model of `generateDomain`: all domain values for the block
sequence `nums` on a line of length `size`. -/
def generateDomain (size : Nat) (nums : List Nat) :
    Except Unit (List (List Bool)) :=
  generateDomainHelper size nums (List.replicate size false) none 0
    ((nums.sum : Nat) : Int)

/-- The reversed in-place deletion loop shared by `reduceDomain` and the
inner loop of `reduceNeighborDomains`: visit indices `k-1, …, 0` of the
evolving list and delete entry `i` when its cell at `index` differs from
`value`.  Deleting at the visited index never disturbs the not yet
visited positions below it, so this is the exact effect of the original
`for i in reversed(range(len(domain)))` loop. -/
def reduceDomainAux (index : Nat) (value : Bool) :
    List (List Bool) → Nat → List (List Bool)
  | domain, 0 => domain
  | domain, i + 1 =>
    reduceDomainAux index value
      (if (domain.getD i []).getD index false != value
        then domain.eraseIdx i else domain) i

/-- Faithful model of `reduceDomain`: no-op on a singleton domain,
otherwise remove every candidate whose value at `index` differs from
`value`. -/
def reduceDomain (domain : List (List Bool)) (index : Nat) (value : Bool) :
    List (List Bool) :=
  if domain.length = 1 then domain
  else reduceDomainAux index value domain domain.length

/-- Faithful model of `reduceNeighborDomains`: for every cell position
`i` of the collapsed candidate `known_domain` holding `False` whose
perpendicular domain still has more than one candidate and whose
intersection triple is not yet recorded, delete from
`unknown_domains[i]` every candidate filled at the crossing index. -/
def reduceNeighborDomains (flag : Bool) (ki : Finset (Bool × Nat × Nat))
    (known_domain : List Bool) (unknown_domains : List (List (List Bool)))
    (index : Nat) : List (List (List Bool)) :=
  (List.range known_domain.length).foldl
    (fun uds i =>
      if known_domain.getD i false = false ∧ 1 < (uds.getD i []).length ∧
          (flag, index, i) ∉ ki then
        uds.set i (reduceDomainAux index false (uds.getD i [])
          (uds.getD i []).length)
      else uds)
    unknown_domains

/-- Faithful model of `getDomainIntersects`: scan every cell position of
the line (the original reads the position count off `domain[0]`, so the
domain is assumed non-empty there); positions already recorded in the
known-intersects set are skipped, and a position on which all candidates
agree yields the agreed record.  The early exit of the inner scan is a
pure optimisation and is dropped. -/
def getDomainIntersects (flag : Bool) (ki : Finset (Bool × Nat × Nat))
    (domain : List (List Bool)) (index : Nat) : List (Nat × Bool) :=
  (List.range (domain.getD 0 []).length).flatMap
    (fun i =>
      if (flag, index, i) ∈ ki then []
      else
        (if domain.all (fun c => c.getD i false) then [(i, true)] else []) ++
        (if domain.all (fun c => !(c.getD i false)) then [(i, false)] else []))

/-- Faithful model of `reduceDomains`: one directional pass.  The mutable
state threaded through the `enumerate(domains_a)` loop is the triple of
the known set of the scanned orientation, the perpendicular domain list
and the known-intersects set; `domains_a` itself is only read (the two
call sites pass distinct list objects for the two orientations). -/
def reduceDomains (flag : Bool) (domains_a : List (List (List Bool)))
    (known_a : Finset Nat) (domains_b : List (List (List Bool)))
    (ki : Finset (Bool × Nat × Nat)) :
    Finset Nat × List (List (List Bool)) × Finset (Bool × Nat × Nat) :=
  (List.range domains_a.length).foldl
    (fun st i =>
      let domain := domains_a.getD i []
      if i ∈ st.1 then st
      else
        let ka2 : Finset Nat :=
          if domain.length = 1 then insert i st.1 else st.1
        let db2 : List (List (List Bool)) :=
          if domain.length = 1 then
            reduceNeighborDomains flag st.2.2 (domain.getD 0 []) st.2.1 i
          else st.2.1
        (getDomainIntersects flag st.2.2 domain i).foldl
          (fun q iv =>
            (q.1, q.2.1.set iv.1 (reduceDomain (q.2.1.getD iv.1 []) i iv.2),
              insert (flag, i, iv.1) q.2.2))
          (ka2, db2, st.2.2))
    (known_a, domains_b, ki)

/-- The mutable attributes of one `NonogramSolver` instance. -/
structure SolverState where
  size : Nat
  rows : List (List Nat)
  cols : List (List Nat)
  row_domains : List (List (List Bool))
  col_domains : List (List (List Bool))
  known_rows : Finset Nat
  known_cols : Finset Nat
  known_intersects : Finset (Bool × Nat × Nat)
  is_searching_rows : Bool
deriving DecidableEq

/-- The call `self.reduceDomains(self.row_domains, self.known_rows,
self.col_domains)` viewed as a state transformer. -/
def reduceRowsS (s : SolverState) : SolverState :=
  let r := reduceDomains s.is_searching_rows s.row_domains s.known_rows
    s.col_domains s.known_intersects
  { s with known_rows := r.1, col_domains := r.2.1, known_intersects := r.2.2 }

/-- The call `self.reduceDomains(self.col_domains, self.known_cols,
self.row_domains)` viewed as a state transformer. -/
def reduceColsS (s : SolverState) : SolverState :=
  let r := reduceDomains s.is_searching_rows s.col_domains s.known_cols
    s.row_domains s.known_intersects
  { s with known_cols := r.1, row_domains := r.2.1, known_intersects := r.2.2 }

/-- One iteration of the propagation loop body of `solve`: the row pass
with its orientation flip, then — unless all rows are known — the column
pass with its flip. -/
def solveStep (s : SolverState) : SolverState :=
  let s1 := reduceRowsS s
  let s1 := { s1 with is_searching_rows := !s1.is_searching_rows }
  if s1.known_rows.card ≠ s1.size then
    let s2 := reduceColsS s1
    { s2 with is_searching_rows := !s2.is_searching_rows }
  else s1

/-- The `while` loop of `solve`, indexed by an iteration budget: the
original has no bound and loops as long as neither known set has reached
`size`. -/
def solveLoop : Nat → SolverState → SolverState
  | 0, s => s
  | fuel + 1, s =>
    if s.known_rows.card ≠ s.size ∧ s.known_cols.card ≠ s.size then
      solveLoop fuel (solveStep s)
    else s

/-! Specification-side vocabulary: the lengths of the maximal runs of
`true` cells of a line, read left to right. -/

/-- Helper of `runs`: `acc` is the length of the run of `true` cells
currently being traversed. -/
def runsAux : List Bool → Nat → List Nat
  | [], acc => if acc = 0 then [] else [acc]
  | true :: rest, acc => runsAux rest (acc + 1)
  | false :: rest, acc =>
    if acc = 0 then runsAux rest 0 else acc :: runsAux rest 0

/-- The block structure of a line: the lengths of its maximal `true`
runs, left to right. -/
def runs (l : List Bool) : List Nat := runsAux l 0

/-- Total version of the block write: set `n` cells to `true` starting at
index `i` (writes beyond the end are dropped by `List.set`). -/
def setTrueRun : List Bool → Nat → Nat → List Bool
  | row, _, 0 => row
  | row, i, n + 1 => setTrueRun (row.set i true) (i + 1) n

/-- Reference enumerator used to reason about the generator: place the
blocks `bs` on `row` left to right, the next block starting no earlier
than `st`, every placement keeping all later blocks and their mandatory
gaps inside the line. -/
def placeRuns (size : Nat) : List Bool → Nat → List Nat → List (List Bool)
  | row, _, [] => [row]
  | row, st, b :: bs =>
    (List.range (size + 1 - (st + b + bs.sum + bs.length))).flatMap
      (fun off =>
        placeRuns size (setTrueRun row (st + off) b) (st + off + b + 1) bs)

/-- Post-generation state of the 2×2 puzzle with all row and column
specs equal to `[1]`: every line domain holds the two fillings of one
cell, no cell is forced, so a propagation round makes no progress. -/
def loopExample : SolverState :=
  ⟨2, [[1], [1]], [[1], [1]],
    [[[true, false], [false, true]], [[true, false], [false, true]]],
    [[[true, false], [false, true]], [[true, false], [false, true]]],
    ∅, ∅, ∅, true⟩

/-- A state of the 1×1 puzzle in which the stop condition already holds
(all rows known) while the column side has not been processed. -/
def stopExample : SolverState :=
  ⟨1, [[1]], [[1]], [[[true]]], [[[true]]], {0}, ∅, ∅, false⟩

/-- Post-generation state of the 1×1 puzzle with spec `[1]` on the row
and the column: the row pass collapses everything at once. -/
def solvedExample : SolverState :=
  ⟨1, [[1]], [[1]], [[[true]]], [[[true]]], ∅, ∅, ∅, true⟩

/-! Basic list bookkeeping lemmas used throughout. -/

theorem getD_eq_getElem {α : Type _} (l : List α) (d : α) {n : Nat}
    (h : n < l.length) : l.getD n d = l[n] := by
  rw [List.getD_eq_getElem?_getD, List.getElem?_eq_getElem h]
  rfl

theorem getD_set_ne {α : Type _} (l : List α) (a d : α) {i j : Nat}
    (h : i ≠ j) : (l.set i a).getD j d = l.getD j d := by
  rw [List.getD_eq_getElem?_getD, List.getElem?_set_ne h,
    ← List.getD_eq_getElem?_getD]

theorem take_set {α : Type _} :
    ∀ (l : List α) (i : Nat) (a : α), (l.set i a).take i = l.take i
  | [], _, _ => by simp
  | _ :: _, 0, _ => by simp
  | x :: l, i + 1, a => by
    simp only [List.set_cons_succ, List.take_succ_cons, List.cons.injEq,
      true_and]
    exact take_set l i a

theorem eraseIdx_eq_take_drop {α : Type _} :
    ∀ (l : List α) (i : Nat), l.eraseIdx i = l.take i ++ l.drop (i + 1)
  | [], _ => by simp
  | _ :: _, 0 => by simp
  | x :: l, i + 1 => by
    simp only [List.eraseIdx_cons_succ, List.take_succ_cons,
      List.drop_succ_cons, List.cons_append, List.cons.injEq, true_and]
    exact eraseIdx_eq_take_drop l i

theorem getElem?_eq_head_drop {α : Type _} :
    ∀ (l : List α) (n : Nat), l[n]? = (l.drop n).head?
  | [], n => by simp
  | a :: l, 0 => by simp
  | a :: l, n + 1 => by
    simpa using getElem?_eq_head_drop l n

theorem getD_replicate_false :
    ∀ (n j : Nat), (List.replicate n false).getD j false = false
  | 0, _ => by simp [List.getD_eq_getElem?_getD]
  | n + 1, 0 => by simp [List.getD_eq_getElem?_getD]
  | n + 1, j + 1 => by
    simpa [List.replicate_succ, List.getD] using getD_replicate_false n j

theorem set_getD_self {α : Type _} :
    ∀ (l : List α) (i : Nat) (d : α), l.set i (l.getD i d) = l
  | [], _, _ => by simp
  | a :: l, 0, d => by simp [List.getD]
  | a :: l, i + 1, d => by
    simpa [List.getD] using set_getD_self l i d

/-! Lemmas on the block write `setTrueRun` and its `Except` version. -/

theorem length_setTrueRun :
    ∀ (n : Nat) (row : List Bool) (i : Nat),
      (setTrueRun row i n).length = row.length
  | 0, _, _ => rfl
  | n + 1, row, i => by
    rw [setTrueRun, length_setTrueRun n, List.length_set]

theorem setRun_ok :
    ∀ (n : Nat) (row : List Bool) (i : Nat), i + n ≤ row.length →
      setRun row i n = .ok (setTrueRun row i n)
  | 0, _, _, _ => rfl
  | n + 1, row, i, h => by
    have hi : i < row.length := by omega
    rw [setRun, npSet, if_pos hi, setTrueRun]
    exact setRun_ok n _ (i + 1) (by rw [List.length_set]; omega)

theorem setRun_err :
    ∀ (n : Nat) (row : List Bool) (i : Nat), 0 < n → row.length < i + n →
      setRun row i n = .error ()
  | n + 1, row, i, _, h => by
    rw [setRun, npSet]
    by_cases hi : i < row.length
    · rw [if_pos hi]
      have hn : 0 < n := by omega
      exact setRun_err n _ (i + 1) hn (by rw [List.length_set]; omega)
    · rw [if_neg hi]

theorem getD_setTrueRun_ge :
    ∀ (b : Nat) (row : List Bool) (s j : Nat), s + b ≤ j →
      (setTrueRun row s b).getD j false = row.getD j false
  | 0, _, _, _, _ => rfl
  | b + 1, row, s, j, h => by
    rw [setTrueRun, getD_setTrueRun_ge b _ (s + 1) j (by omega),
      getD_set_ne _ _ _ (by omega)]

theorem setTrueRun_eq :
    ∀ (b : Nat) (row : List Bool) (s : Nat), s + b ≤ row.length →
      setTrueRun row s b =
        row.take s ++ List.replicate b true ++ row.drop (s + b)
  | 0, row, s, _ => by
    show row = _
    simp
  | b + 1, row, s, h => by
    have hs : s < row.length := by omega
    rw [setTrueRun,
      setTrueRun_eq b (row.set s true) (s + 1)
        (by rw [List.length_set]; omega)]
    rw [List.take_succ, take_set,
      List.getElem?_eq_getElem (by rw [List.length_set]; omega),
      List.getElem_set_self, List.drop_set_of_lt _ _ (by omega)]
    have harr : s + 1 + b = s + (b + 1) := by omega
    rw [harr, List.replicate_succ]
    simp

/-! Lemmas on the run-length reading `runs`. -/

theorem runsAux_replicate_false :
    ∀ (m acc : Nat), runsAux (List.replicate m false) acc =
      if acc = 0 then [] else [acc]
  | 0, acc => by simp [runsAux]
  | m + 1, acc => by
    by_cases hacc : acc = 0 <;>
      simp [List.replicate_succ, runsAux, hacc,
        runsAux_replicate_false m 0, runsAux_replicate_false m acc]

theorem runsAux_replicate_true_append :
    ∀ (b : Nat) (t : List Bool) (acc : Nat),
      runsAux (List.replicate b true ++ t) acc = runsAux t (acc + b)
  | 0, t, acc => by simp
  | b + 1, t, acc => by
    have h : acc + 1 + b = acc + (b + 1) := by omega
    simpa [List.replicate_succ, runsAux, h]
      using runsAux_replicate_true_append b t (acc + 1)

theorem runsAux_append :
    ∀ (P : List Bool), P.getLast? = some false →
      ∀ (Q : List Bool) (acc : Nat),
        runsAux (P ++ Q) acc = runsAux P acc ++ runsAux Q 0
  | [], h => by simp at h
  | [a], h => by
    intro Q acc
    have ha : a = false := by simpa using h
    subst ha
    by_cases hacc : acc = 0 <;> simp [runsAux, hacc]
  | a :: b :: P, h => by
    intro Q acc
    have h2 : (b :: P).getLast? = some false := by
      rwa [List.getLast?_cons_cons] at h
    cases a with
    | true =>
      simpa [runsAux] using runsAux_append (b :: P) h2 Q (acc + 1)
    | false =>
      have hrec := runsAux_append (b :: P) h2 Q 0
      simp only [List.cons_append] at hrec ⊢
      by_cases hacc : acc = 0 <;> simp [runsAux, hacc, hrec]

theorem runs_replicate_false (m : Nat) : runs (List.replicate m false) = [] := by
  simp [runs, runsAux_replicate_false]

theorem runs_true_false (b m : Nat) (hb : 0 < b) :
    runs (List.replicate b true ++ List.replicate m false) = [b] := by
  rw [runs, runsAux_replicate_true_append, runsAux_replicate_false]
  simp [Nat.pos_iff_ne_zero.mp hb]

theorem runs_append (P Q : List Bool) (h : P.getLast? = some false) :
    runs (P ++ Q) = runs P ++ runs Q :=
  runsAux_append P h Q 0

/-! Unfolding lemmas for the recursive generator. -/

theorem generateDomainHelper_zero (size : Nat) (nums : List Nat)
    (row : List Bool) (last : Option (Nat × Nat)) (index : Nat) :
    generateDomainHelper size nums row last index 0 = .ok [row] := by
  rw [generateDomainHelper]
  simp

theorem generateDomainHelper_step (size : Nat) (nums : List Nat)
    (row : List Bool) (last : Option (Nat × Nat)) (index : Nat) (sum : Int)
    (c : Nat) (hsum : sum ≠ 0) (hgetidx : nums[index]? = some c) :
    generateDomainHelper size nums row last index sum =
      placeLoop size nums row c index (sum - c) (startOf last)
        (((if ((startOf last : Nat) : Int) =
              (size : Int) - (sum - c) - nums.length + index - c + 2 then
            (size : Int) - (sum - c) - nums.length + index - c + 2 + 1
          else (size : Int) - (sum - c) - nums.length + index - c + 2) -
          ((startOf last : Nat) : Int)).toNat) := by
  rw [generateDomainHelper]
  rw [if_neg hsum]
  split
  · next heq => rw [hgetidx] at heq; exact absurd heq (by simp)
  · next cur heq =>
    rw [hgetidx] at heq
    injection heq with heq
    subst heq
    rfl

/-- One loop level of the generator, under feasibility: the iterations
over the legal starts of the current block produce exactly the reference
placements, provided the deeper levels (hypothesis `IH`) already do. -/
theorem placeLoop_eq (size : Nat) (nums : List Nat) (cur index : Nat)
    (bs : List Nat)
    (IH : ∀ (row2 : List Bool) (i : Nat), row2.length = size →
      i + cur + 1 + bs.sum + bs.length ≤ size + 1 →
      generateDomainHelper size nums row2 (some (i, cur)) (index + 1)
          ((bs.sum : Int)) =
        .ok (placeRuns size row2 (i + cur + 1) bs)) :
    ∀ (count start : Nat) (row : List Bool), row.length = size → 0 < cur →
      start + count + cur + bs.sum + bs.length ≤ size + 1 →
      placeLoop size nums row cur index ((bs.sum : Int)) start count =
        .ok ((List.range count).flatMap (fun off =>
          placeRuns size (setTrueRun row (start + off) cur)
            (start + off + cur + 1) bs)) := by
  intro count
  induction count with
  | zero =>
    intro start row hrow hcur hb
    rw [placeLoop]
    rfl
  | succ c ih =>
    intro start row hrow hcur hb
    have h1 := setRun_ok cur row start (by omega)
    have h2 := IH (setTrueRun row start cur) start
      (by rw [length_setTrueRun]; exact hrow) (by omega)
    have h3 := ih (start + 1) row hrow hcur (by omega)
    rw [placeLoop]
    simp only [h1, h2, h3]
    rw [List.range_succ_eq_map, List.flatMap_cons, List.flatMap_map]
    simp only [Nat.succ_eq_add_one, Nat.add_zero]
    have harg : ∀ a : Nat, start + 1 + a = start + (a + 1) := by omega
    simp only [harg]

/-- Under feasibility of the remaining blocks, the recursive generator
equals the reference enumerator `placeRuns` (and in particular does not
fault). -/
theorem helper_eq (size : Nat) (nums : List Nat) (row : List Bool)
    (last : Option (Nat × Nat)) (index : Nat)
    (hpos : ∀ b ∈ nums.drop index, 0 < b)
    (hrow : row.length = size)
    (hidx : index ≤ nums.length)
    (hfit : startOf last + (nums.drop index).sum + (nums.length - index) ≤
      size + 1) :
    generateDomainHelper size nums row last index
        (((nums.drop index).sum : Int)) =
      .ok (placeRuns size row (startOf last) (nums.drop index)) := by
  cases hrest : nums.drop index with
  | nil =>
    simp only [List.sum_nil, Nat.cast_zero, generateDomainHelper_zero]
    rfl
  | cons c cs =>
    have hc : 0 < c := hpos c (by rw [hrest]; exact List.mem_cons_self c cs)
    have hcs : ∀ b ∈ cs, 0 < b := fun b hb =>
      hpos b (by rw [hrest]; exact List.mem_cons_of_mem c hb)
    have hlen : nums.length - index = cs.length + 1 := by
      have h := congrArg List.length hrest
      rwa [List.length_drop, List.length_cons] at h
    have hlenNat : nums.length = index + cs.length + 1 := by omega
    have hgetidx : nums[index]? = some c := by
      rw [getElem?_eq_head_drop, hrest]; rfl
    have hdrop2 : nums.drop (index + 1) = cs := by
      rw [← List.tail_drop, hrest]; rfl
    rw [hrest] at hfit
    rw [List.sum_cons] at hfit
    have hsumne : (((c :: cs).sum : Nat) : Int) ≠ 0 := by
      rw [List.sum_cons, Nat.cast_add]; omega
    have hs2 : (((c :: cs).sum : Nat) : Int) - (c : Nat) =
        ((cs.sum : Nat) : Int) := by
      rw [List.sum_cons, Nat.cast_add]; ring
    have IH : ∀ (row2 : List Bool) (i : Nat), row2.length = size →
        i + c + 1 + cs.sum + cs.length ≤ size + 1 →
        generateDomainHelper size nums row2 (some (i, c)) (index + 1)
            ((cs.sum : Int)) = .ok (placeRuns size row2 (i + c + 1) cs) := by
      intro row2 i hrow2 hfit2
      have hrec := helper_eq size nums row2 (some (i, c)) (index + 1)
        (by rw [hdrop2]; exact hcs) hrow2 (by omega)
        (by
          rw [hdrop2]
          show i + c + 1 + cs.sum + (nums.length - (index + 1)) ≤ size + 1
          omega)
      rwa [hdrop2] at hrec
    rw [generateDomainHelper_step size nums row last index _ c hsumne hgetidx]
    rw [hs2]
    have happ : ∀ (m : Nat),
        m = size + 1 - (startOf last + c + cs.sum + cs.length) →
        placeLoop size nums row c index ((cs.sum : Nat) : Int)
            (startOf last) m =
          .ok (placeRuns size row (startOf last) (c :: cs)) := by
      intro m hm
      subst hm
      rw [placeLoop_eq size nums c index cs IH _ (startOf last) row hrow hc
        (by omega)]
      rw [placeRuns]
    apply happ
    split
    · next h => exfalso; omega
    · next h => omega
termination_by nums.length - index
decreasing_by omega

/-- The generator on a feasible spec equals the reference enumerator. -/
theorem generateDomain_eq (size : Nat) (nums : List Nat)
    (hpos : ∀ b ∈ nums, 0 < b)
    (hfit : nums.sum + nums.length ≤ size + 1) :
    generateDomain size nums =
      .ok (placeRuns size (List.replicate size false) 0 nums) := by
  have h := helper_eq size nums (List.replicate size false) none 0
    (by simpa using hpos) (List.length_replicate size false) (Nat.zero_le _)
    (by simpa [startOf] using hfit)
  simpa [generateDomain, startOf] using h

/-- When the remaining blocks overflow the line by exactly one cell, the
fencepost correction `end += 1` fires at every level and the final block
write runs past the end of the line: the generator faults. -/
theorem helper_deficit1 (size : Nat) (nums : List Nat) (row : List Bool)
    (last : Option (Nat × Nat)) (index : Nat)
    (hpos : ∀ b ∈ nums.drop index, 0 < b)
    (hrow : row.length = size)
    (hidx : index ≤ nums.length)
    (hne : nums.drop index ≠ [])
    (hdef : startOf last + (nums.drop index).sum + (nums.length - index) =
      size + 2) :
    generateDomainHelper size nums row last index
      (((nums.drop index).sum : Int)) = .error () := by
  cases hrest : nums.drop index with
  | nil => exact absurd hrest hne
  | cons c cs =>
    have hc : 0 < c := hpos c (by rw [hrest]; exact List.mem_cons_self c cs)
    have hcs : ∀ b ∈ cs, 0 < b := fun b hb =>
      hpos b (by rw [hrest]; exact List.mem_cons_of_mem c hb)
    have hlen : nums.length - index = cs.length + 1 := by
      have h := congrArg List.length hrest
      rwa [List.length_drop, List.length_cons] at h
    have hlenNat : nums.length = index + cs.length + 1 := by omega
    have hgetidx : nums[index]? = some c := by
      rw [getElem?_eq_head_drop, hrest]; rfl
    have hdrop2 : nums.drop (index + 1) = cs := by
      rw [← List.tail_drop, hrest]; rfl
    rw [hrest] at hdef
    rw [List.sum_cons] at hdef
    have hsumne : (((c :: cs).sum : Nat) : Int) ≠ 0 := by
      rw [List.sum_cons, Nat.cast_add]; omega
    have hs2 : (((c :: cs).sum : Nat) : Int) - (c : Nat) =
        ((cs.sum : Nat) : Int) := by
      rw [List.sum_cons, Nat.cast_add]; ring
    rw [generateDomainHelper_step size nums row last index _ c hsumne hgetidx]
    rw [hs2]
    have hplace : placeLoop size nums row c index ((cs.sum : Nat) : Int)
        (startOf last) 1 = .error () := by
      rw [placeLoop]
      cases hcscase : cs with
      | nil =>
        rw [hcscase] at hdef hlen
        simp only [List.sum_nil, List.length_nil] at hdef hlen
        have herr := setRun_err c row (startOf last) hc (by omega)
        simp only [herr]
      | cons d ds =>
        have hsumcs : 0 < cs.sum := by
          rw [hcscase, List.sum_cons]
          have := hcs d (by rw [hcscase]; exact List.mem_cons_self d ds)
          omega
        have hlencs : 0 < cs.length := by rw [hcscase]; simp
        have hok := setRun_ok c row (startOf last) (by omega)
        have hrec := helper_deficit1 size nums (setTrueRun row (startOf last) c)
          (some (startOf last, c)) (index + 1)
          (by rw [hdrop2]; exact hcs)
          (by rw [length_setTrueRun]; exact hrow)
          (by omega)
          (by rw [hdrop2, hcscase]; exact List.cons_ne_nil d ds)
          (by
            rw [hdrop2]
            show startOf last + c + 1 + cs.sum + (nums.length - (index + 1)) =
              size + 2
            omega)
        rw [hdrop2] at hrec
        rw [hcscase] at hrec
        simp only [hok, hrec]
    have happ : ∀ (m : Nat), m = 1 →
        placeLoop size nums row c index ((cs.sum : Nat) : Int)
          (startOf last) m = .error () := by
      intro m hm
      subst hm
      exact hplace
    apply happ
    split
    · next h => omega
    · next h => exfalso; omega
termination_by nums.length - index
decreasing_by omega

/-- When the blocks overflow the line by at least two cells, the very
first range of legal starts is already empty and the generator returns
the empty domain. -/
theorem generateDomain_deficit2 (size : Nat) (nums : List Nat)
    (hpos : ∀ b ∈ nums, 0 < b)
    (hdef : size + 3 ≤ nums.sum + nums.length) :
    generateDomain size nums = .ok [] := by
  cases nums with
  | nil => simp at hdef
  | cons c cs =>
    have hc : 0 < c := hpos c (List.mem_cons_self c cs)
    have hsumne : (((c :: cs).sum : Nat) : Int) ≠ 0 := by
      rw [List.sum_cons, Nat.cast_add]; omega
    have hs2 : (((c :: cs).sum : Nat) : Int) - (c : Nat) =
        ((cs.sum : Nat) : Int) := by
      rw [List.sum_cons, Nat.cast_add]; ring
    have hgetidx : (c :: cs)[0]? = some c := by simp
    rw [List.sum_cons, List.length_cons] at hdef
    unfold generateDomain
    rw [generateDomainHelper_step size (c :: cs) _ none 0 _ c hsumne hgetidx]
    rw [hs2]
    have happ : ∀ (m : Nat), m = 0 →
        placeLoop size (c :: cs) (List.replicate size false) c 0
          ((cs.sum : Nat) : Int) (startOf none) m = .ok [] := by
      intro m hm
      subst hm
      rw [placeLoop]
    apply happ
    simp only [startOf, List.length_cons, Nat.cast_add, Nat.cast_one,
      Nat.cast_zero, Nat.cast_ofNat]
    split
    · next h => exfalso; omega
    · next h => omega

/-- When the blocks overflow the line by exactly one cell, the generator
faults with an out-of-bounds write instead of reporting an empty
domain. -/
theorem generateDomain_deficit1 (size : Nat) (nums : List Nat)
    (hpos : ∀ b ∈ nums, 0 < b) (hne : nums ≠ [])
    (hdef : nums.sum + nums.length = size + 2) :
    generateDomain size nums = .error () := by
  have h := helper_deficit1 size nums (List.replicate size false) none 0
    (by simpa using hpos) (List.length_replicate size false) (Nat.zero_le _)
    (by simpa using hne) (by simpa [startOf] using hdef)
  simpa [generateDomain] using h

/-! Run structure of the reference placements. -/

theorem drop_eq_replicate_false (row : List Bool) (p : Nat)
    (hf : ∀ j, p ≤ j → row.getD j false = false) :
    row.drop p = List.replicate (row.length - p) false := by
  apply List.eq_replicate.mpr
  refine ⟨List.length_drop p row, ?_⟩
  intro b hb
  rw [List.mem_iff_getElem] at hb
  obtain ⟨k, hk, hbe⟩ := hb
  have hklen : p + k < row.length := by
    have h := List.length_drop p row
    omega
  rw [List.getElem_drop] at hbe
  rw [← hbe, ← getD_eq_getElem row false hklen]
  exact hf (p + k) (by omega)

/-- Writing a block of `true` cells into a line that is blank from the
cell before the block onwards appends exactly one run. -/
theorem runs_setTrueRun (row : List Bool) (s b : Nat) (hb : 0 < b)
    (hsb : s + b ≤ row.length)
    (hf : ∀ j, s ≤ j + 1 → row.getD j false = false) :
    runs (setTrueRun row s b) = runs row ++ [b] := by
  have hdrop : row.drop (s + b) = List.replicate (row.length - (s + b)) false :=
    drop_eq_replicate_false row (s + b) (fun j hj => hf j (by omega))
  have hrow : row = row.take s ++ List.replicate (row.length - s) false := by
    conv_lhs => rw [← List.take_append_drop s row]
    rw [drop_eq_replicate_false row s (fun j hj => hf j (by omega))]
  rw [setTrueRun_eq b row s hsb, hdrop]
  rcases Nat.eq_zero_or_pos s with hs | hs
  · subst hs
    simp only [List.take_zero, List.nil_append, Nat.zero_add]
    rw [runs_true_false b _ hb]
    conv_rhs => rw [hrow]
    simp only [List.take_zero, List.nil_append, Nat.sub_zero,
      runs_replicate_false]
  · have hslen : s < row.length := by omega
    have htl : (row.take s).length = s := by
      rw [List.length_take]; omega
    have hlast : (row.take s).getLast? = some false := by
      rw [List.getLast?_eq_getElem?, htl,
        List.getElem?_eq_getElem (by rw [htl]; omega)]
      congr 1
      rw [List.getElem_take]
      rw [← getD_eq_getElem row false (by omega)]
      exact hf (s - 1) (by omega)
    rw [List.append_assoc]
    rw [runs_append _ _ hlast]
    rw [runs_true_false b _ hb]
    conv_rhs => rw [hrow]
    rw [runs_append _ _ hlast, runs_replicate_false, List.append_nil]

/-- Soundness of the reference enumerator: every produced candidate has
the line length and extends the runs of the partial line by exactly the
placed blocks. -/
theorem placeRuns_sound (size : Nat) :
    ∀ (bs : List Nat), (∀ b ∈ bs, 0 < b) →
      ∀ (row : List Bool) (st : Nat), row.length = size →
        (∀ j, st ≤ j + 1 → row.getD j false = false) →
        ∀ c ∈ placeRuns size row st bs,
          c.length = size ∧ runs c = runs row ++ bs
  | [], _, row, st, hrow, hf, c, hc => by
    simp only [placeRuns, List.mem_singleton] at hc
    subst hc
    exact ⟨hrow, by simp⟩
  | b :: bs, hpos, row, st, hrow, hf, c, hc => by
    simp only [placeRuns, List.mem_flatMap, List.mem_range] at hc
    obtain ⟨off, hoff, hc⟩ := hc
    have hb : 0 < b := hpos b (List.mem_cons_self b bs)
    have hbs : ∀ x ∈ bs, 0 < x := fun x hx =>
      hpos x (List.mem_cons_of_mem b hx)
    have hbound : st + off + b + bs.sum + bs.length ≤ size := by omega
    have hsb : st + off + b ≤ row.length := by rw [hrow]; omega
    have hrow2 : (setTrueRun row (st + off) b).length = size := by
      rw [length_setTrueRun]; exact hrow
    have hf2 : ∀ j, st + off + b + 1 ≤ j + 1 →
        (setTrueRun row (st + off) b).getD j false = false := by
      intro j hj
      rw [getD_setTrueRun_ge b row (st + off) j (by omega)]
      exact hf j (by omega)
    obtain ⟨hlen, hruns⟩ := placeRuns_sound size bs hbs
      (setTrueRun row (st + off) b) (st + off + b + 1) hrow2 hf2 c hc
    refine ⟨hlen, ?_⟩
    rw [hruns, runs_setTrueRun row (st + off) b hb hsb
      (fun j hj => hf j (by omega))]
    simp

/-! Decomposition of a line by its leading run, used for completeness. -/

theorem runsAux_ne_nil :
    ∀ (t : List Bool) (acc : Nat), acc ≠ 0 → runsAux t acc ≠ []
  | [], acc, h => by simp [runsAux, h]
  | true :: t, acc, h => by
    rw [runsAux]
    exact runsAux_ne_nil t (acc + 1) (by omega)
  | false :: t, acc, h => by simp [runsAux, h]

theorem runs_eq_nil_all_false :
    ∀ (t : List Bool), runs t = [] → ∀ x ∈ t, x = false
  | [], _, x, hx => absurd hx (List.not_mem_nil x)
  | true :: t, h, x, hx => by
    rw [runs, runsAux] at h
    exact absurd h (runsAux_ne_nil t 1 one_ne_zero)
  | false :: t, h, x, hx => by
    rw [List.mem_cons] at hx
    rcases hx with rfl | hx
    · rfl
    · refine runs_eq_nil_all_false t ?_ x hx
      rw [runs, runsAux, if_pos rfl] at h
      exact h

theorem runsAux_cons_decomp :
    ∀ (t : List Bool) (acc b : Nat) (bs : List Nat), 0 < acc →
      runsAux t acc = b :: bs →
      acc ≤ b ∧ ∃ rest, t = List.replicate (b - acc) true ++ rest ∧
        (rest = [] ∨ rest.head? = some false) ∧ runs rest = bs
  | [], acc, b, bs, hacc, h => by
    rw [runsAux, if_neg (by omega)] at h
    injection h with h1 h2
    subst h1
    refine ⟨le_refl _, [], ?_, Or.inl rfl, h2.symm ▸ rfl⟩
    simp
  | true :: t, acc, b, bs, hacc, h => by
    rw [runsAux] at h
    obtain ⟨hle, rest, ht, hrest, hruns⟩ :=
      runsAux_cons_decomp t (acc + 1) b bs (by omega) h
    refine ⟨by omega, rest, ?_, hrest, hruns⟩
    rw [ht]
    have hsplit : b - acc = (b - (acc + 1)) + 1 := by omega
    rw [hsplit, List.replicate_succ, List.cons_append]
  | false :: t, acc, b, bs, hacc, h => by
    rw [runsAux, if_neg (by omega)] at h
    injection h with h1 h2
    subst h1
    refine ⟨le_refl _, false :: t, by simp, Or.inr rfl, ?_⟩
    rw [runs, runsAux, if_pos rfl]
    exact h2

theorem runs_cons_decomp :
    ∀ (t : List Bool) (b : Nat) (bs : List Nat), runs t = b :: bs →
      ∃ g rest,
        t = List.replicate g false ++ List.replicate b true ++ rest ∧
        (rest = [] ∨ rest.head? = some false) ∧ runs rest = bs
  | [], b, bs, h => by simp [runs, runsAux] at h
  | false :: t, b, bs, h => by
    rw [runs, runsAux, if_pos rfl] at h
    obtain ⟨g, rest, ht, hrest, hruns⟩ := runs_cons_decomp t b bs h
    refine ⟨g + 1, rest, ?_, hrest, hruns⟩
    rw [List.replicate_succ, List.cons_append, List.cons_append, ← ht]
  | true :: t, b, bs, h => by
    rw [runs, runsAux] at h
    obtain ⟨hle, rest, ht, hrest, hruns⟩ :=
      runsAux_cons_decomp t 1 b bs one_pos h
    refine ⟨0, rest, ?_, hrest, hruns⟩
    rw [List.replicate_zero, List.nil_append]
    have hb1 : List.replicate b true = true :: List.replicate (b - 1) true := by
      conv_lhs => rw [show b = (b - 1) + 1 by omega]
      rw [List.replicate_succ]
    rw [hb1, List.cons_append, ← ht]

theorem runsAux_length_bound :
    ∀ (t : List Bool) (acc : Nat),
      (runsAux t acc).sum + (runsAux t acc).length ≤ t.length + acc + 1
  | [], acc => by
    rw [runsAux]
    by_cases h : acc = 0 <;> simp [h]
  | true :: t, acc => by
    rw [runsAux]
    have h := runsAux_length_bound t (acc + 1)
    simp only [List.length_cons]
    omega
  | false :: t, acc => by
    rw [runsAux]
    have h := runsAux_length_bound t 0
    by_cases hacc : acc = 0
    · rw [if_pos hacc]
      simp only [List.length_cons]
      omega
    · rw [if_neg hacc]
      simp only [List.sum_cons, List.length_cons]
      omega

/-- A line starting with a blank cell is at least as long as the blocks
of its run reading plus one separating blank per block. -/
theorem runs_length_bound_false (t : List Bool) (h : t.head? = some false) :
    (runs t).sum + (runs t).length ≤ t.length := by
  cases t with
  | nil => simp at h
  | cons a t =>
    have ha : a = false := by simpa using h
    subst ha
    rw [runs, runsAux, if_pos rfl]
    have hb := runsAux_length_bound t 0
    simp only [List.length_cons]
    omega

/-- Completeness of the reference enumerator: every filling of the free
suffix of the line whose runs are exactly the remaining blocks is
produced. -/
theorem placeRuns_complete (size : Nat) :
    ∀ (bs : List Nat), (∀ b ∈ bs, 0 < b) →
      ∀ (row : List Bool) (st : Nat) (tail : List Bool),
        row.length = size →
        (∀ j, st ≤ j + 1 → row.getD j false = false) →
        st ≤ size + 1 →
        tail.length = size - st →
        runs tail = bs →
        (row.take st ++ tail) ∈ placeRuns size row st bs
  | [], _, row, st, tail, hrow, hf, hst, htail, hruns => by
    have hall : ∀ x ∈ tail, x = false := runs_eq_nil_all_false tail hruns
    have htail2 : tail = List.replicate (size - st) false :=
      List.eq_replicate.mpr ⟨htail, hall⟩
    have heq : row.take st ++ tail = row := by
      rw [htail2]
      conv_rhs => rw [← List.take_append_drop st row]
      congr 1
      rw [drop_eq_replicate_false row st (fun j hj => hf j (by omega)), hrow]
    rw [heq]
    simp [placeRuns]
  | b :: bs, hpos, row, st, tail, hrow, hf, hst, htail, hruns => by
    have hb : 0 < b := hpos b (List.mem_cons_self b bs)
    have hbs : ∀ x ∈ bs, 0 < x := fun x hx =>
      hpos x (List.mem_cons_of_mem b hx)
    obtain ⟨g, rest, ht, hrest, hruns2⟩ := runs_cons_decomp tail b bs hruns
    have hlentail : tail.length = g + b + rest.length := by
      rw [ht]
      simp [List.length_append, List.length_replicate]
      omega
    have hrestlen : bs.sum + bs.length ≤ rest.length := by
      rcases hrest with hnil | hhead
      · have hbs0 : bs = [] := by
          rw [hnil] at hruns2
          simpa [runs, runsAux] using hruns2.symm
        rw [hbs0]
        simp
      · have hbound := runs_length_bound_false rest hhead
        rw [hruns2] at hbound
        omega
    have hstle : st ≤ size := by omega
    have hsb : st + g + b + bs.sum + bs.length ≤ size := by omega
    have hfs : ∀ j, st ≤ j → row.getD j false = false :=
      fun j hj => hf j (by omega)
    have htake_s : row.take (st + g) = row.take st ++ List.replicate g false := by
      rw [List.take_add]
      congr 1
      rw [drop_eq_replicate_false row st hfs, List.take_replicate]
      congr 1
      omega
    have hsbrow : st + g + b ≤ row.length := by rw [hrow]; omega
    have hrow2form : setTrueRun row (st + g) b =
        row.take st ++ List.replicate g false ++ List.replicate b true ++
          row.drop (st + g + b) := by
      rw [setTrueRun_eq b row (st + g) hsbrow, htake_s]
    simp only [placeRuns, List.mem_flatMap, List.mem_range]
    refine ⟨g, by omega, ?_⟩
    have hrow2len : (setTrueRun row (st + g) b).length = size := by
      rw [length_setTrueRun]; exact hrow
    have hf2 : ∀ j, st + g + b + 1 ≤ j + 1 →
        (setTrueRun row (st + g) b).getD j false = false := by
      intro j hj
      rw [getD_setTrueRun_ge b row (st + g) j (by omega)]
      exact hf j (by omega)
    rcases hrest with hnil | hhead
    · have hbs0 : bs = [] := by
        rw [hnil] at hruns2
        simpa [runs, runsAux] using hruns2.symm
      subst hbs0
      rw [hnil, List.append_nil] at ht
      have hrest0 : rest.length = 0 := by rw [hnil]; rfl
      have hsize : st + g + b = size := by omega
      have heq : row.take st ++ tail = setTrueRun row (st + g) b := by
        rw [hrow2form, ht, hsize, ← hrow, List.drop_length, List.append_nil,
          List.append_assoc]
      rw [heq]
      simp [placeRuns]
    · cases rest with
      | nil => simp at hhead
      | cons r0 rtail =>
        have hr0 : r0 = false := by simpa using hhead
        subst hr0
        have hruns3 : runs rtail = bs := by
          rw [runs, runsAux, if_pos rfl] at hruns2
          exact hruns2
        have hsblt : st + g + b < size := by
          simp only [List.length_cons] at hlentail
          omega
        have hrtail_len : rtail.length = size - (st + g + b + 1) := by
          simp only [List.length_cons] at hlentail
          omega
        have hmem := placeRuns_complete size bs hbs (setTrueRun row (st + g) b)
          (st + g + b + 1) rtail hrow2len hf2 (by omega) hrtail_len hruns3
        have hdropform : row.drop (st + g + b) =
            false :: row.drop (st + g + b + 1) := by
          rw [List.drop_eq_getElem_cons (by omega)]
          congr 1
          rw [← getD_eq_getElem row false (by omega)]
          exact hf (st + g + b) (by omega)
        have hlenA : (row.take st ++ List.replicate g false ++
            List.replicate b true).length = st + g + b := by
          simp only [List.length_append, List.length_take,
            List.length_replicate]
          omega
        have htake2 : (setTrueRun row (st + g) b).take (st + g + b + 1) =
            row.take st ++ List.replicate g false ++ List.replicate b true ++
              [false] := by
          rw [hrow2form, hdropform]
          rw [show st + g + b + 1 = (row.take st ++ List.replicate g false ++
            List.replicate b true).length + 1 by rw [hlenA]]
          rw [List.take_append]
          simp
        have heq : row.take st ++ tail =
            (setTrueRun row (st + g) b).take (st + g + b + 1) ++ rtail := by
          rw [htake2, ht]
          simp only [List.append_assoc, List.cons_append,
            List.singleton_append, List.nil_append]
        rw [heq]
        exact hmem

/-! Counting the reference placements: stars and bars. -/

theorem sum_range_choose_shift :
    ∀ (cnt M m : Nat), M + 1 = m + cnt →
      ((List.range cnt).map (fun off => Nat.choose (M - off) m)).sum =
        Nat.choose (M + 1) (m + 1)
  | 0, M, m, h => by
    have hlt : M + 1 < m + 1 := by omega
    simp [Nat.choose_eq_zero_of_lt hlt]
  | cnt + 1, M, m, h => by
    rw [List.range_succ_eq_map, List.map_cons, List.sum_cons, List.map_map]
    cases cnt with
    | zero =>
      have hM : M = m := by omega
      subst hM
      simp [Nat.choose_self]
    | succ c =>
      have hfun : ((fun off => Nat.choose (M - off) m) ∘ Nat.succ) =
          (fun off => Nat.choose (M - 1 - off) m) := by
        funext off
        simp only [Function.comp]
        congr 1
        omega
      rw [hfun, sum_range_choose_shift (c + 1) (M - 1) m (by omega)]
      have hM1 : M - 1 + 1 = M := by omega
      rw [hM1, Nat.sub_zero]
      have hpascal := Nat.choose_succ_succ M m
      simp only [Nat.succ_eq_add_one] at hpascal
      omega

theorem placeRuns_length (size : Nat) :
    ∀ (bs : List Nat) (st : Nat) (row : List Bool),
      st + bs.sum + bs.length ≤ size + 1 →
      (placeRuns size row st bs).length =
        Nat.choose (size + 1 - (st + bs.sum)) bs.length
  | [], st, row, h => by simp [placeRuns]
  | b :: bs, st, row, h => by
    have hsums : (b :: bs).sum = b + bs.sum := List.sum_cons
    have hlens : (b :: bs).length = bs.length + 1 := List.length_cons b bs
    rw [hsums, hlens] at h
    simp only [placeRuns]
    rw [List.length_flatMap]
    have hmap : List.map (List.length ∘ fun off =>
          placeRuns size (setTrueRun row (st + off) b) (st + off + b + 1) bs)
          (List.range (size + 1 - (st + b + bs.sum + bs.length))) =
        List.map (fun off =>
          Nat.choose (size - (st + b + bs.sum) - off) bs.length)
          (List.range (size + 1 - (st + b + bs.sum + bs.length))) := by
      apply List.map_congr_left
      intro off hoff
      rw [List.mem_range] at hoff
      simp only [Function.comp]
      rw [placeRuns_length size bs (st + off + b + 1) _ (by omega)]
      congr 1
      omega
    rw [hmap, sum_range_choose_shift _ _ _ (by omega), hsums, hlens]
    congr 1
    omega

/-! The three claim-level theorems about the line domain generator. -/

/-- C1: on a feasible spec with positive block lengths, the generator
returns exactly the boolean sequences of the line length whose run
reading is the block sequence; an empty block sequence yields the single
all-blank candidate. -/
theorem C1_generateDomain (size : Nat) (nums : List Nat)
    (hpos : ∀ b ∈ nums, 0 < b)
    (hfit : (nums.sum : Int) + nums.length - 1 ≤ (size : Int)) :
    ∃ dom, generateDomain size nums = .ok dom ∧
      (∀ c ∈ dom, c.length = size ∧ runs c = nums) ∧
      (∀ c : List Bool, c.length = size → runs c = nums → c ∈ dom) ∧
      (nums = [] → dom = [List.replicate size false]) := by
  have hfitn : nums.sum + nums.length ≤ size + 1 := by omega
  have hrep : ∀ j, 0 ≤ j + 1 →
      (List.replicate size false).getD j false = false :=
    fun j _ => getD_replicate_false size j
  refine ⟨placeRuns size (List.replicate size false) 0 nums,
    generateDomain_eq size nums hpos hfitn, ?_, ?_, ?_⟩
  · intro c hc
    obtain ⟨h1, h2⟩ := placeRuns_sound size nums hpos
      (List.replicate size false) 0 (List.length_replicate size false) hrep
      c hc
    rw [runs_replicate_false] at h2
    exact ⟨h1, by simpa using h2⟩
  · intro c hlen hruns
    have hmem := placeRuns_complete size nums hpos (List.replicate size false)
      0 c (List.length_replicate size false) hrep (by omega) (by omega) hruns
    simpa using hmem
  · intro h
    subst h
    rfl

theorem C1_generateDomain_witness :
    (∀ b ∈ ([2, 1] : List Nat), 0 < b) ∧
    (((([2, 1] : List Nat).sum : Nat) : Int) +
      (([2, 1] : List Nat).length : Int) - 1 ≤ (5 : Int)) ∧
    ∃ dom, generateDomain 5 [2, 1] = .ok dom ∧
      (∀ c ∈ dom, c.length = 5 ∧ runs c = [2, 1]) ∧
      (∀ c : List Bool, c.length = 5 → runs c = [2, 1] → c ∈ dom) ∧
      (([2, 1] : List Nat) = [] → dom = [List.replicate 5 false]) :=
  ⟨by decide, by decide, C1_generateDomain 5 [2, 1] (by decide) (by decide)⟩

/-- C2 (amended): on a feasible spec the candidate count is the
stars-and-bars binomial and the domain is non-empty; a spec overflowing
the line by exactly one cell makes the generator fault; a spec
overflowing by two or more cells yields the empty domain. -/
theorem C2_generateDomain_count (size : Nat) (nums : List Nat)
    (hpos : ∀ b ∈ nums, 0 < b) :
    ((nums.sum : Int) + nums.length - 1 ≤ (size : Int) →
      ∃ dom, generateDomain size nums = .ok dom ∧
        dom.length = Nat.choose (size - nums.sum + 1) nums.length ∧
        dom ≠ []) ∧
    ((nums.sum : Int) + nums.length - 1 = (size : Int) + 1 →
      generateDomain size nums = .error ()) ∧
    ((size : Int) + 2 ≤ (nums.sum : Int) + nums.length - 1 →
      generateDomain size nums = .ok []) := by
  refine ⟨?_, ?_, ?_⟩
  · intro hfit
    have hfitn : nums.sum + nums.length ≤ size + 1 := by omega
    have hsumle : nums.sum ≤ size := by
      cases nums with
      | nil => simp
      | cons x xs =>
        rw [List.sum_cons, List.length_cons] at hfitn
        rw [List.sum_cons]
        omega
    refine ⟨placeRuns size (List.replicate size false) 0 nums,
      generateDomain_eq size nums hpos hfitn, ?_, ?_⟩
    · rw [placeRuns_length size nums 0 _ (by omega)]
      congr 1
      omega
    · have hchoose : 0 < Nat.choose (size + 1 - (0 + nums.sum)) nums.length :=
        Nat.choose_pos (by omega)
      have hlen := placeRuns_length size nums 0
        (List.replicate size false) (by omega)
      intro hcon
      rw [hcon] at hlen
      simp only [List.length_nil] at hlen
      omega
  · intro hdef
    have hdefn : nums.sum + nums.length = size + 2 := by omega
    have hne : nums ≠ [] := by
      intro h
      subst h
      simp at hdefn
    exact generateDomain_deficit1 size nums hpos hne hdefn
  · intro hdef
    exact generateDomain_deficit2 size nums hpos (by omega)

theorem C2_generateDomain_count_witness :
    (∃ dom, generateDomain 5 [2, 1] = .ok dom ∧
      dom.length = Nat.choose (5 - ([2, 1] : List Nat).sum + 1)
        ([2, 1] : List Nat).length ∧ dom ≠ []) ∧
    generateDomain 5 [6] = .error () ∧
    generateDomain 5 [7] = .ok [] :=
  ⟨(C2_generateDomain_count 5 [2, 1] (by decide)).1 (by decide),
    (C2_generateDomain_count 5 [6] (by decide)).2.1 (by decide),
    (C2_generateDomain_count 5 [7] (by decide)).2.2 (by decide)⟩

/-- C2 counterexample: at line length 5 with blocks `[6]` the fit
constraint fails, yet the generator faults with an out-of-bounds write
instead of returning the empty list. -/
theorem C2_counterexample :
    ((5 : Int) < ((([6] : List Nat).sum : Nat) : Int) +
      (([6] : List Nat).length : Int) - 1) ∧
    generateDomain 5 [6] ≠ .ok [] ∧
    generateDomain 5 [6] = .error () := by
  have herr : generateDomain 5 [6] = .error () :=
    generateDomain_deficit1 5 [6] (by decide) (by decide) (by decide)
  exact ⟨by decide, by rw [herr]; intro h; exact Except.noConfusion h, herr⟩

/-- C3 (evaluation at the failing input): at line length 1 with blocks
`[2]` — an infeasible spec — the recursive placement writes the cell at
index 1, beyond the line, and the generator faults instead of returning
an empty domain. -/
theorem C3_generateDomain_crash :
    ((1 : Int) < ((([2] : List Nat).sum : Nat) : Int) +
      (([2] : List Nat).length : Int) - 1) ∧
    generateDomain 1 [2] = .error () :=
  ⟨by decide, generateDomain_deficit1 1 [2] (by decide) (by decide)
    (by decide)⟩

/-! Generic fold invariant, and pointwise facts about list updates. -/

theorem foldl_invariant {α β : Type _} (P : β → Prop) (f : β → α → β)
    (l : List α) (b : β) (hb : P b)
    (hstep : ∀ x ∈ l, ∀ y, P y → P (f y x)) : P (l.foldl f b) := by
  induction l generalizing b with
  | nil => exact hb
  | cons a l ih =>
    exact ih (f b a) (hstep a (List.mem_cons_self a l) b hb)
      (fun x hx y hy => hstep x (List.mem_cons_of_mem a hx) y hy)

theorem getD_set_cases {α : Type _} (l : List α) (i p : Nat) (x d : α) :
    (l.set i x).getD p d =
      if i = p ∧ i < l.length then x else l.getD p d := by
  by_cases hip : i = p
  · subst hip
    by_cases hlen : i < l.length
    · rw [if_pos ⟨rfl, hlen⟩, getD_eq_getElem _ _ (by rwa [List.length_set]),
        List.getElem_set_self]
    · rw [if_neg (by tauto), List.set_eq_of_length_le (by omega)]
  · rw [if_neg (by tauto), getD_set_ne _ _ _ hip]

/-! The deletion loop equals an order-preserving filter. -/

theorem reduceDomainAux_eq (index : Nat) (value : Bool) :
    ∀ (k : Nat) (d : List (List Bool)), k ≤ d.length →
      reduceDomainAux index value d k =
        (d.take k).filter (fun c => c.getD index false == value) ++ d.drop k
  | 0, d, _ => by simp [reduceDomainAux]
  | k + 1, d, h => by
    have hk : k < d.length := by omega
    have hgetd : d.getD k [] = d[k] := getD_eq_getElem d [] hk
    have htake : d.take (k + 1) = d.take k ++ [d[k]] := by
      rw [List.take_succ, List.getElem?_eq_getElem hk]
      rfl
    have hdrop : d.drop k = d[k] :: d.drop (k + 1) :=
      List.drop_eq_getElem_cons hk
    have htl : (d.take k).length = k := by
      rw [List.length_take]
      omega
    rw [reduceDomainAux]
    by_cases hdel : d[k].getD index false = value
    · have hcond : ((d.getD k []).getD index false != value) = false := by
        rw [hgetd, hdel]
        simp
      rw [hcond]
      simp only [Bool.false_eq_true, if_false]
      rw [reduceDomainAux_eq index value k d (by omega)]
      have hsingle :
          List.filter (fun c => c.getD index false == value) [d[k]] =
            [d[k]] := by
        rw [List.filter_cons, List.filter_nil, if_pos (by
          show (d[k].getD index false == value) = true
          rw [hdel]
          exact beq_self_eq_true value)]
      rw [htake, List.filter_append, hsingle, hdrop, List.append_assoc,
        List.singleton_append]
    · have hcond : ((d.getD k []).getD index false != value) = true := by
        rw [hgetd]
        simpa using hdel
      rw [hcond]
      simp only [if_true]
      have herase : d.eraseIdx k = d.take k ++ d.drop (k + 1) :=
        eraseIdx_eq_take_drop d k
      have hlen2 : k ≤ (d.eraseIdx k).length := by
        rw [List.length_eraseIdx, if_pos hk]
        omega
      rw [reduceDomainAux_eq index value k _ hlen2, herase]
      have hsingle0 :
          List.filter (fun c => c.getD index false == value) [d[k]] = [] := by
        rw [List.filter_cons, List.filter_nil, if_neg (by
          show ¬ ((d[k].getD index false == value) = true)
          intro hcontra
          exact hdel (beq_iff_eq.mp hcontra))]
      rw [List.take_left' htl, List.drop_left' htl, htake, List.filter_append,
        hsingle0, List.append_nil]

theorem reduceDomain_eq (d : List (List Bool)) (index : Nat) (value : Bool) :
    reduceDomain d index value =
      if d.length = 1 then d
      else d.filter (fun c => c.getD index false == value) := by
  rw [reduceDomain]
  by_cases h : d.length = 1
  · rw [if_pos h, if_pos h]
  · rw [if_neg h, if_neg h,
      reduceDomainAux_eq index value d.length d (le_refl _),
      List.take_length, List.drop_length, List.append_nil]

theorem reduceDomain_sublist (d : List (List Bool)) (index : Nat)
    (value : Bool) : (reduceDomain d index value).Sublist d := by
  rw [reduceDomain_eq]
  by_cases h : d.length = 1
  · rw [if_pos h]
  · rw [if_neg h]
    exact List.filter_sublist d

theorem reduceDomain_singleton (d : List (List Bool)) (index : Nat)
    (value : Bool) (h : d.length = 1) : reduceDomain d index value = d := by
  rw [reduceDomain_eq, if_pos h]

theorem reduceDomain_nil (index : Nat) (value : Bool) :
    reduceDomain [] index value = [] := by
  rw [reduceDomain_eq]
  simp

/-- C6: `reduceDomain` is the identity on a singleton domain and
otherwise keeps exactly the candidates agreeing with the forced value, in
their original order; a second identical call changes nothing. -/
theorem C6_reduceDomain (d : List (List Bool)) (index : Nat) (value : Bool) :
    reduceDomain d index value =
      (if d.length = 1 then d
       else d.filter (fun c => c.getD index false == value)) ∧
    reduceDomain (reduceDomain d index value) index value =
      reduceDomain d index value := by
  refine ⟨reduceDomain_eq d index value, ?_⟩
  by_cases h : d.length = 1
  · rw [reduceDomain_singleton d index value h,
      reduceDomain_singleton d index value h]
  · rw [reduceDomain_eq d index value, if_neg h]
    by_cases h2 : (d.filter (fun c => c.getD index false == value)).length = 1
    · rw [reduceDomain_singleton _ index value h2]
    · rw [reduceDomain_eq, if_neg h2, List.filter_filter]
      apply List.filter_congr
      intro c hc
      simp [Bool.and_self]

/-! Characterisation of the forced-cell scan. -/

theorem nodup_map_fst_flatMap_range (n : Nat) (f : Nat → List (Nat × Bool))
    (hf : ∀ i, ∀ q ∈ f i, q.1 = i) (hlen : ∀ i, (f i).length ≤ 1) :
    (((List.range n).flatMap f).map Prod.fst).Nodup := by
  induction n with
  | zero => simp
  | succ n ih =>
    rw [List.range_succ, List.flatMap_append, List.map_append]
    rw [List.nodup_append]
    refine ⟨ih, ?_, ?_⟩
    · rw [List.flatMap_cons, List.flatMap_nil, List.append_nil]
      have h1 := hlen n
      cases hfn : f n with
      | nil => simp
      | cons q t =>
        rw [hfn] at h1
        simp only [List.length_cons] at h1
        have ht : t = [] := by
          cases t with
          | nil => rfl
          | cons a b => simp at h1
        subst ht
        simp
    · intro a ha hb
      rw [List.mem_map] at ha hb
      obtain ⟨q, hq, rfl⟩ := ha
      obtain ⟨q2, hq2, he⟩ := hb
      rw [List.mem_flatMap] at hq
      obtain ⟨i, hi, hqi⟩ := hq
      rw [List.mem_range] at hi
      simp only [List.flatMap_cons, List.flatMap_nil, List.append_nil] at hq2
      have h1 : q.1 = i := hf i q hqi
      have h2 : q2.1 = n := hf n q2 hq2
      omega

/-- C7: for a non-empty domain of equal-length candidates, the
intersection scan returns the pair `(p, v)` exactly for the cell
positions `p` of the line that are not yet recorded for this orientation
and line and on which every remaining candidate agrees with value `v`;
every position yields at most one record. -/
theorem C7_getDomainIntersects (flag : Bool) (ki : Finset (Bool × Nat × Nat))
    (domain : List (List Bool)) (index : Nat)
    (hne : domain ≠ [])
    (hlen : ∀ c ∈ domain, c.length = (domain.getD 0 []).length) :
    (∀ p v, (p, v) ∈ getDomainIntersects flag ki domain index ↔
      (p < (domain.getD 0 []).length ∧ (flag, index, p) ∉ ki ∧
        ∀ c ∈ domain, c.getD p false = v)) ∧
    ((getDomainIntersects flag ki domain index).map Prod.fst).Nodup := by
  obtain ⟨c0, hc0⟩ : ∃ c0, c0 ∈ domain := by
    cases domain with
    | nil => exact absurd rfl hne
    | cons a t => exact ⟨a, List.mem_cons_self a t⟩
  constructor
  · intro p v
    rw [getDomainIntersects, List.mem_flatMap]
    constructor
    · rintro ⟨i, hi, hmem⟩
      rw [List.mem_range] at hi
      by_cases hki : (flag, index, i) ∈ ki
      · rw [if_pos hki] at hmem
        simp at hmem
      · rw [if_neg hki] at hmem
        rw [List.mem_append] at hmem
        rcases hmem with hmem | hmem
        · by_cases hall : domain.all (fun c => c.getD i false) = true
          · rw [if_pos hall] at hmem
            simp only [List.mem_singleton, Prod.mk.injEq] at hmem
            obtain ⟨rfl, rfl⟩ := hmem
            refine ⟨hi, hki, ?_⟩
            intro c hc
            rw [List.all_eq_true] at hall
            exact hall c hc
          · rw [if_neg hall] at hmem
            simp at hmem
        · by_cases hall : domain.all (fun c => !(c.getD i false)) = true
          · rw [if_pos hall] at hmem
            simp only [List.mem_singleton, Prod.mk.injEq] at hmem
            obtain ⟨rfl, rfl⟩ := hmem
            refine ⟨hi, hki, ?_⟩
            intro c hc
            rw [List.all_eq_true] at hall
            have h := hall c hc
            simp only [Bool.not_eq_true'] at h
            exact h
          · rw [if_neg hall] at hmem
            simp at hmem
    · rintro ⟨hp, hki, hall⟩
      refine ⟨p, List.mem_range.mpr hp, ?_⟩
      rw [if_neg hki, List.mem_append]
      cases v with
      | true =>
        left
        rw [if_pos (List.all_eq_true.mpr (fun c hc => hall c hc))]
        simp
      | false =>
        right
        rw [if_pos (List.all_eq_true.mpr (fun c hc => by
          rw [Bool.not_eq_true', hall c hc]))]
        simp
  · rw [getDomainIntersects]
    apply nodup_map_fst_flatMap_range
    · intro i q hq
      by_cases hki : (flag, index, i) ∈ ki
      · rw [if_pos hki] at hq
        simp at hq
      · rw [if_neg hki] at hq
        rw [List.mem_append] at hq
        rcases hq with hq | hq <;>
          · split at hq <;> simp_all
    · intro i
      by_cases hki : (flag, index, i) ∈ ki
      · rw [if_pos hki]
        simp
      · rw [if_neg hki]
        by_cases h1 : domain.all (fun c => c.getD i false) = true
        · by_cases h2 : domain.all (fun c => !(c.getD i false)) = true
          · exfalso
            rw [List.all_eq_true] at h1 h2
            have ht := h1 c0 hc0
            have hf := h2 c0 hc0
            rw [ht] at hf
            simp at hf
          · rw [if_pos h1, if_neg h2]
            simp
        · rw [if_neg h1]
          simp only [List.nil_append]
          split <;> simp

/-! Invariants of a reduction pass. -/

theorem reduceDomainAux_full (index : Nat) (value : Bool)
    (d : List (List Bool)) :
    reduceDomainAux index value d d.length =
      d.filter (fun c => c.getD index false == value) := by
  rw [reduceDomainAux_eq index value d.length d (le_refl _),
    List.take_length, List.drop_length, List.append_nil]

theorem reduceNeighborDomains_sublist (flag : Bool)
    (ki : Finset (Bool × Nat × Nat)) (kd : List Bool)
    (uds : List (List (List Bool))) (index : Nat) :
    ∀ p, ((reduceNeighborDomains flag ki kd uds index).getD p []).Sublist
      (uds.getD p []) := by
  rw [reduceNeighborDomains]
  refine foldl_invariant
    (fun (u : List (List (List Bool))) =>
      ∀ p, (u.getD p []).Sublist (uds.getD p [])) _ _ _
    (fun p => List.Sublist.refl _) ?_
  intro x hx y hy
  split
  · intro p
    rw [getD_set_cases]
    split
    · next hcase =>
      obtain ⟨rfl, hlt⟩ := hcase
      rw [reduceDomainAux_full index false (y.getD x [])]
      exact (List.filter_sublist _).trans (hy x)
    · exact hy p
  · exact hy

theorem reduceNeighborDomains_id_of_singleton (flag : Bool)
    (ki : Finset (Bool × Nat × Nat)) (kd : List Bool)
    (uds : List (List (List Bool))) (index : Nat)
    (h : ∀ d ∈ uds, d.length = 1) :
    reduceNeighborDomains flag ki kd uds index = uds := by
  rw [reduceNeighborDomains]
  refine foldl_invariant (fun (u : List (List (List Bool))) => u = uds) _ _ _
    rfl ?_
  intro x hx y hy
  rw [hy]
  split
  · next hcond =>
    exfalso
    obtain ⟨h1, h2, h3⟩ := hcond
    by_cases hxlen : x < uds.length
    · have hmem : uds.getD x [] ∈ uds := by
        rw [getD_eq_getElem uds [] hxlen]
        exact List.getElem_mem hxlen
      have := h _ hmem
      omega
    · rw [List.getD_eq_default _ _ (by omega)] at h2
      simp at h2
  · rfl

/-- The pass only removes candidates from the perpendicular domains and
only adds entries to the scanned known set and to the known-intersects
set. -/
theorem reduceDomains_facts (flag : Bool) (da : List (List (List Bool)))
    (ka : Finset Nat) (db : List (List (List Bool)))
    (ki : Finset (Bool × Nat × Nat)) :
    (∀ p, (((reduceDomains flag da ka db ki).2.1).getD p []).Sublist
      (db.getD p [])) ∧
    ka ⊆ (reduceDomains flag da ka db ki).1 ∧
    ki ⊆ (reduceDomains flag da ka db ki).2.2 := by
  rw [reduceDomains]
  refine foldl_invariant
    (fun (st : Finset Nat × List (List (List Bool)) ×
        Finset (Bool × Nat × Nat)) =>
      (∀ p, (st.2.1.getD p []).Sublist (db.getD p [])) ∧
        ka ⊆ st.1 ∧ ki ⊆ st.2.2) _ _ _
    ⟨fun p => List.Sublist.refl _, Finset.Subset.refl _, Finset.Subset.refl _⟩
    ?_
  intro i hi st hst
  obtain ⟨h1, h2, h3⟩ := hst
  dsimp only
  split
  · exact ⟨h1, h2, h3⟩
  · refine foldl_invariant
      (fun (q : Finset Nat × List (List (List Bool)) ×
          Finset (Bool × Nat × Nat)) =>
        (∀ p, (q.2.1.getD p []).Sublist (db.getD p [])) ∧
          ka ⊆ q.1 ∧ ki ⊆ q.2.2) _ _ _ ?_ ?_
    · refine ⟨?_, ?_, h3⟩
      · split
        · intro p
          exact (reduceNeighborDomains_sublist flag st.2.2 _ st.2.1 i p).trans
            (h1 p)
        · exact h1
      · split
        · exact h2.trans (Finset.subset_insert _ _)
        · exact h2
    · intro iv hiv q hq
      obtain ⟨hq1, hq2, hq3⟩ := hq
      refine ⟨?_, hq2, hq3.trans (Finset.subset_insert _ _)⟩
      intro p
      rw [getD_set_cases]
      split
      · next hc =>
        obtain ⟨rfl, hlt⟩ := hc
        exact (reduceDomain_sublist _ i iv.2).trans (hq1 iv.1)
      · exact hq1 p

/-- A pass over an orientation whose lines are all already known skips
every line and changes nothing at all. -/
theorem reduceDomains_id_of_known (flag : Bool)
    (da : List (List (List Bool))) (ka : Finset Nat)
    (db : List (List (List Bool))) (ki : Finset (Bool × Nat × Nat))
    (h : ∀ i < da.length, i ∈ ka) :
    reduceDomains flag da ka db ki = (ka, db, ki) := by
  rw [reduceDomains]
  refine foldl_invariant
    (fun (st : Finset Nat × List (List (List Bool)) ×
        Finset (Bool × Nat × Nat)) => st = (ka, db, ki)) _ _ _ rfl ?_
  intro i hi st hst
  rw [List.mem_range] at hi
  rw [hst]
  dsimp only
  rw [if_pos (h i hi)]

/-- A pass whose perpendicular domains are all singletons leaves every
domain untouched; only the scanned known set and the known-intersects
set can grow. -/
theorem reduceDomains_of_singleton_db (flag : Bool)
    (da : List (List (List Bool))) (ka : Finset Nat)
    (db : List (List (List Bool))) (ki : Finset (Bool × Nat × Nat))
    (h : ∀ d ∈ db, d.length = 1) :
    (reduceDomains flag da ka db ki).2.1 = db ∧
    ka ⊆ (reduceDomains flag da ka db ki).1 ∧
    ki ⊆ (reduceDomains flag da ka db ki).2.2 := by
  rw [reduceDomains]
  refine foldl_invariant
    (fun (st : Finset Nat × List (List (List Bool)) ×
        Finset (Bool × Nat × Nat)) =>
      st.2.1 = db ∧ ka ⊆ st.1 ∧ ki ⊆ st.2.2) _ _ _
    ⟨rfl, Finset.Subset.refl _, Finset.Subset.refl _⟩ ?_
  intro i hi st hst
  obtain ⟨h1, h2, h3⟩ := hst
  dsimp only
  split
  · exact ⟨h1, h2, h3⟩
  · refine foldl_invariant
      (fun (q : Finset Nat × List (List (List Bool)) ×
          Finset (Bool × Nat × Nat)) =>
        q.2.1 = db ∧ ka ⊆ q.1 ∧ ki ⊆ q.2.2) _ _ _ ?_ ?_
    · refine ⟨?_, ?_, h3⟩
      · split
        · rw [h1]
          exact reduceNeighborDomains_id_of_singleton flag st.2.2 _ db i h
        · exact h1
      · split
        · exact h2.trans (Finset.subset_insert _ _)
        · exact h2
    · intro iv hiv q hq
      obtain ⟨hq1, hq2, hq3⟩ := hq
      refine ⟨?_, hq2, hq3.trans (Finset.subset_insert _ _)⟩
      rw [hq1]
      by_cases hlt : iv.1 < db.length
      · have hmem : db.getD iv.1 [] ∈ db := by
          rw [getD_eq_getElem db [] hlt]
          exact List.getElem_mem hlt
        rw [reduceDomain_singleton _ _ _ (h _ hmem), set_getD_self]
      · rw [List.set_eq_of_length_le (by omega)]

/-! State-level views of the two pass call sites and of the solve loop. -/

theorem reduceRowsS_facts (s : SolverState) :
    (reduceRowsS s).row_domains = s.row_domains ∧
    (reduceRowsS s).known_cols = s.known_cols ∧
    (reduceRowsS s).size = s.size ∧
    (reduceRowsS s).rows = s.rows ∧
    (reduceRowsS s).cols = s.cols ∧
    (reduceRowsS s).is_searching_rows = s.is_searching_rows ∧
    s.known_rows ⊆ (reduceRowsS s).known_rows ∧
    s.known_intersects ⊆ (reduceRowsS s).known_intersects ∧
    ∀ p, ((reduceRowsS s).col_domains.getD p []).Sublist
      (s.col_domains.getD p []) := by
  obtain ⟨h1, h2, h3⟩ := reduceDomains_facts s.is_searching_rows s.row_domains
    s.known_rows s.col_domains s.known_intersects
  exact ⟨rfl, rfl, rfl, rfl, rfl, rfl, h2, h3, h1⟩

theorem reduceColsS_facts (s : SolverState) :
    (reduceColsS s).col_domains = s.col_domains ∧
    (reduceColsS s).known_rows = s.known_rows ∧
    (reduceColsS s).size = s.size ∧
    (reduceColsS s).rows = s.rows ∧
    (reduceColsS s).cols = s.cols ∧
    (reduceColsS s).is_searching_rows = s.is_searching_rows ∧
    s.known_cols ⊆ (reduceColsS s).known_cols ∧
    s.known_intersects ⊆ (reduceColsS s).known_intersects ∧
    ∀ p, ((reduceColsS s).row_domains.getD p []).Sublist
      (s.row_domains.getD p []) := by
  obtain ⟨h1, h2, h3⟩ := reduceDomains_facts s.is_searching_rows s.col_domains
    s.known_cols s.row_domains s.known_intersects
  exact ⟨rfl, rfl, rfl, rfl, rfl, rfl, h2, h3, h1⟩

theorem solveStep_eq_pos (s : SolverState)
    (h : (reduceRowsS s).known_rows.card ≠ s.size) :
    solveStep s =
      { reduceColsS { reduceRowsS s with
          is_searching_rows := !(reduceRowsS s).is_searching_rows } with
        is_searching_rows := !(reduceColsS { reduceRowsS s with
          is_searching_rows :=
            !(reduceRowsS s).is_searching_rows }).is_searching_rows } := by
  unfold solveStep
  exact if_pos h

theorem solveStep_eq_neg (s : SolverState)
    (h : ¬ ((reduceRowsS s).known_rows.card ≠ s.size)) :
    solveStep s = { reduceRowsS s with
      is_searching_rows := !(reduceRowsS s).is_searching_rows } := by
  unfold solveStep
  exact if_neg h

theorem solveStep_facts (s : SolverState) :
    (∀ p, ((solveStep s).row_domains.getD p []).Sublist
      (s.row_domains.getD p [])) ∧
    (∀ p, ((solveStep s).col_domains.getD p []).Sublist
      (s.col_domains.getD p [])) ∧
    s.known_rows ⊆ (solveStep s).known_rows ∧
    s.known_cols ⊆ (solveStep s).known_cols ∧
    s.known_intersects ⊆ (solveStep s).known_intersects := by
  obtain ⟨a1, a2, a3, a4, a5, a6, a7, a8, a9⟩ := reduceRowsS_facts s
  by_cases hc : (reduceRowsS s).known_rows.card ≠ s.size
  · rw [solveStep_eq_pos s hc]
    obtain ⟨b1, b2, b3, b4, b5, b6, b7, b8, b9⟩ := reduceColsS_facts
      { reduceRowsS s with
        is_searching_rows := !(reduceRowsS s).is_searching_rows }
    exact ⟨fun p => b9 p, fun p => by rw [a1] at b9; exact b1 ▸ a9 p,
      b2 ▸ a7, b7, a8.trans b8⟩
  · rw [solveStep_eq_neg s hc]
    exact ⟨fun p => by rw [a1], a9, a7, by rw [a2], a8⟩

theorem solveLoop_facts :
    ∀ (fuel : Nat) (s : SolverState),
      (∀ p, ((solveLoop fuel s).row_domains.getD p []).Sublist
        (s.row_domains.getD p [])) ∧
      (∀ p, ((solveLoop fuel s).col_domains.getD p []).Sublist
        (s.col_domains.getD p [])) ∧
      s.known_rows ⊆ (solveLoop fuel s).known_rows ∧
      s.known_cols ⊆ (solveLoop fuel s).known_cols ∧
      s.known_intersects ⊆ (solveLoop fuel s).known_intersects
  | 0, s => ⟨fun p => List.Sublist.refl _, fun p => List.Sublist.refl _,
      Finset.Subset.refl _, Finset.Subset.refl _, Finset.Subset.refl _⟩
  | fuel + 1, s => by
    obtain ⟨a1, a2, a3, a4, a5⟩ := solveStep_facts s
    obtain ⟨b1, b2, b3, b4, b5⟩ := solveLoop_facts fuel (solveStep s)
    rw [solveLoop]
    split
    · exact ⟨fun p => (b1 p).trans (a1 p), fun p => (b2 p).trans (a2 p),
        a3.trans b3, a4.trans b4, a5.trans b5⟩
    · exact ⟨fun p => List.Sublist.refl _, fun p => List.Sublist.refl _,
        Finset.Subset.refl _, Finset.Subset.refl _, Finset.Subset.refl _⟩

/-- C4: the propagation loop keeps iterating while neither known set has
reached `size`, returns unchanged as soon as either has — without any
condition on the other orientation's domains — and within one iteration
the column→row half-pass is skipped exactly when all rows are known
after the row half-pass. -/
theorem C4_solveLoop (s : SolverState) (fuel : Nat) :
    (s.known_rows.card = s.size ∨ s.known_cols.card = s.size →
      solveLoop fuel s = s) ∧
    (s.known_rows.card ≠ s.size → s.known_cols.card ≠ s.size →
      solveLoop (fuel + 1) s = solveLoop fuel (solveStep s)) ∧
    ((reduceRowsS s).known_rows.card = s.size →
      solveStep s = { reduceRowsS s with
        is_searching_rows := !(reduceRowsS s).is_searching_rows }) ∧
    ((reduceRowsS s).known_rows.card ≠ s.size →
      solveStep s =
        { reduceColsS { reduceRowsS s with
            is_searching_rows := !(reduceRowsS s).is_searching_rows } with
          is_searching_rows := !(reduceColsS { reduceRowsS s with
            is_searching_rows :=
              !(reduceRowsS s).is_searching_rows }).is_searching_rows }) := by
  refine ⟨?_, ?_, ?_, ?_⟩
  · intro h
    cases fuel with
    | zero => rfl
    | succ n =>
      rw [solveLoop]
      rw [if_neg (by tauto)]
  · intro h1 h2
    rw [solveLoop]
    rw [if_pos ⟨h1, h2⟩]
  · intro h
    exact solveStep_eq_neg s (fun hn => hn h)
  · intro h
    exact solveStep_eq_pos s h

theorem C4_solveLoop_witness :
    solveLoop 3 stopExample = stopExample ∧
    solveLoop 1 loopExample = solveLoop 0 (solveStep loopExample) ∧
    solveStep solvedExample = { reduceRowsS solvedExample with
      is_searching_rows := !(reduceRowsS solvedExample).is_searching_rows } ∧
    solveStep loopExample =
      { reduceColsS { reduceRowsS loopExample with
          is_searching_rows := !(reduceRowsS loopExample).is_searching_rows }
          with
        is_searching_rows := !(reduceColsS { reduceRowsS loopExample with
          is_searching_rows :=
            !(reduceRowsS loopExample).is_searching_rows }).is_searching_rows } :=
  ⟨(C4_solveLoop stopExample 3).1 (Or.inl (by decide)),
    (C4_solveLoop loopExample 0).2.1 (by decide) (by decide),
    (C4_solveLoop solvedExample 0).2.2.1 (by decide),
    (C4_solveLoop loopExample 0).2.2.2 (by decide)⟩

/-- C5 (evaluation at the failing input): on the 2×2 puzzle whose every
line spec is `[1]`, the generated state satisfies the loop guard, one
full loop iteration returns the state unchanged, and hence the `while`
loop of `solve` never terminates; the code has no no-progress check. -/
theorem C5_solve_nonprogress :
    generateDomain 2 [1] = .ok [[true, false], [false, true]] ∧
    (loopExample.known_rows.card ≠ loopExample.size ∧
      loopExample.known_cols.card ≠ loopExample.size) ∧
    solveStep loopExample = loopExample ∧
    ∀ fuel, solveLoop fuel loopExample = loopExample := by
  have hstep : solveStep loopExample = loopExample := by decide
  refine ⟨?_, ⟨by decide, by decide⟩, hstep, ?_⟩
  · rw [generateDomain_eq 2 [1] (by decide) (by decide)]
    rfl
  · intro fuel
    induction fuel with
    | zero => rfl
    | succ n ih =>
      rw [solveLoop, if_pos ⟨by decide, by decide⟩, hstep, ih]

/-- C8: candidates are only ever removed, never added: every operation
of the propagation phase maps each domain to a sublist of itself, so
every domain size is non-increasing across `reduceDomain`,
`reduceNeighborDomains`, `reduceDomains` and every iteration of the
solve loop. -/
theorem C8_monotonicity :
    (∀ (d : List (List Bool)) (i : Nat) (v : Bool),
      (reduceDomain d i v).Sublist d ∧
      (reduceDomain d i v).length ≤ d.length) ∧
    (∀ (flag : Bool) (ki : Finset (Bool × Nat × Nat)) (kd : List Bool)
      (uds : List (List (List Bool))) (idx p : Nat),
      ((reduceNeighborDomains flag ki kd uds idx).getD p []).Sublist
        (uds.getD p [])) ∧
    (∀ (flag : Bool) (da : List (List (List Bool))) (ka : Finset Nat)
      (db : List (List (List Bool))) (ki : Finset (Bool × Nat × Nat))
      (p : Nat),
      (((reduceDomains flag da ka db ki).2.1).getD p []).Sublist
        (db.getD p [])) ∧
    (∀ (fuel : Nat) (s : SolverState) (p : Nat),
      ((solveLoop fuel s).row_domains.getD p []).Sublist
        (s.row_domains.getD p []) ∧
      ((solveLoop fuel s).col_domains.getD p []).Sublist
        (s.col_domains.getD p [])) :=
  ⟨fun d i v => ⟨reduceDomain_sublist d i v,
      (reduceDomain_sublist d i v).length_le⟩,
    fun flag ki kd uds idx p =>
      reduceNeighborDomains_sublist flag ki kd uds idx p,
    fun flag da ka db ki p => (reduceDomains_facts flag da ka db ki).1 p,
    fun fuel s p => ⟨(solveLoop_facts fuel s).1 p,
      (solveLoop_facts fuel s).2.1 p⟩⟩

/-- C9 counterexample: in a state of the 1×1 puzzle where the stop
condition holds (all rows known), one extra `reduceDomains` pass in the
column→row direction changes the state: it inserts the column index into
the column known set and records an intersect triple. -/
theorem C9_counterexample :
    stopExample.known_rows.card = stopExample.size ∧
    reduceColsS stopExample ≠ stopExample := by
  constructor
  · decide
  · decide

/-- C9 (amended): an extra pass over the fully-known orientation changes
nothing at all; an extra pass in the other direction, all perpendicular
domains being singletons, leaves every domain unchanged but may still
add line indices to the pass's known set and triples to the
known-intersects set. -/
theorem C9_reduceDomains_amended (flag : Bool)
    (da db : List (List (List Bool))) (ka : Finset Nat)
    (ki : Finset (Bool × Nat × Nat)) :
    ((∀ i < da.length, i ∈ ka) →
      reduceDomains flag da ka db ki = (ka, db, ki)) ∧
    ((∀ d ∈ db, d.length = 1) →
      (reduceDomains flag da ka db ki).2.1 = db ∧
      ka ⊆ (reduceDomains flag da ka db ki).1 ∧
      ki ⊆ (reduceDomains flag da ka db ki).2.2) :=
  ⟨fun h => reduceDomains_id_of_known flag da ka db ki h,
    fun h => reduceDomains_of_singleton_db flag da ka db ki h⟩

theorem C9_reduceDomains_amended_witness :
    reduceDomains true [[[true], [false]]] {0} [[[true]]] ∅ =
      ({0}, [[[true]]], ∅) ∧
    ((reduceDomains false [[[true], [false]]] ∅ [[[true]]] ∅).2.1 =
      [[[true]]] ∧
      (∅ : Finset Nat) ⊆
        (reduceDomains false [[[true], [false]]] ∅ [[[true]]] ∅).1 ∧
      (∅ : Finset (Bool × Nat × Nat)) ⊆
        (reduceDomains false [[[true], [false]]] ∅ [[[true]]] ∅).2.2) :=
  ⟨(C9_reduceDomains_amended true [[[true], [false]]] [[[true]]] {0} ∅).1
      (by decide),
    (C9_reduceDomains_amended false [[[true], [false]]] [[[true]]] ∅ ∅).2
      (by decide)⟩

/-- C10: a pass never touches the scanned orientation's domains nor the
other orientation's known set; the only state it changes are the
perpendicular domains (removals only), the scanned known set and the
known-intersects set (insertions only), and no operation ever removes a
known-set entry or an intersect triple. -/
theorem C10_reduceDomains_frame (s : SolverState) :
    ((reduceRowsS s).row_domains = s.row_domains ∧
      (reduceRowsS s).known_cols = s.known_cols ∧
      (reduceRowsS s).size = s.size ∧
      (reduceRowsS s).rows = s.rows ∧
      (reduceRowsS s).cols = s.cols ∧
      (reduceRowsS s).is_searching_rows = s.is_searching_rows ∧
      s.known_rows ⊆ (reduceRowsS s).known_rows ∧
      s.known_intersects ⊆ (reduceRowsS s).known_intersects ∧
      ∀ p, ((reduceRowsS s).col_domains.getD p []).Sublist
        (s.col_domains.getD p [])) ∧
    ((reduceColsS s).col_domains = s.col_domains ∧
      (reduceColsS s).known_rows = s.known_rows ∧
      (reduceColsS s).size = s.size ∧
      (reduceColsS s).rows = s.rows ∧
      (reduceColsS s).cols = s.cols ∧
      (reduceColsS s).is_searching_rows = s.is_searching_rows ∧
      s.known_cols ⊆ (reduceColsS s).known_cols ∧
      s.known_intersects ⊆ (reduceColsS s).known_intersects ∧
      ∀ p, ((reduceColsS s).row_domains.getD p []).Sublist
        (s.row_domains.getD p [])) ∧
    (∀ fuel, s.known_rows ⊆ (solveLoop fuel s).known_rows ∧
      s.known_cols ⊆ (solveLoop fuel s).known_cols ∧
      s.known_intersects ⊆ (solveLoop fuel s).known_intersects) :=
  ⟨reduceRowsS_facts s, reduceColsS_facts s,
    fun fuel => ⟨(solveLoop_facts fuel s).2.2.1,
      (solveLoop_facts fuel s).2.2.2.1, (solveLoop_facts fuel s).2.2.2.2⟩⟩

theorem C7_getDomainIntersects_witness :
    (∀ p v,
      (p, v) ∈ getDomainIntersects true ∅ [[true, false], [true, true]] 0 ↔
      (p < (([[true, false], [true, true]] :
          List (List Bool)).getD 0 []).length ∧
        (true, 0, p) ∉ (∅ : Finset (Bool × Nat × Nat)) ∧
        ∀ c ∈ ([[true, false], [true, true]] : List (List Bool)),
          c.getD p false = v)) ∧
    ((getDomainIntersects true ∅ [[true, false], [true, true]] 0).map
      Prod.fst).Nodup :=
  C7_getDomainIntersects true ∅ [[true, false], [true, true]] 0 (by decide)
    (by decide)

end Nonogram
